import Mathlib

/-!
Verification of `barcode/codex.py` (Code 39, PZN and Code 128 encoders).

Python strings are embedded as `List Char`; raised exceptions become the
`PyError` inductive carried in `Except`.  Every definition mirrors the
source line by line unless its doc comment says `Modelled from the spec:`,
which marks repository code that is absent from `src/` (the file
`codex.py` is truncated after the first lines of `Code128.build`, and the
modules `barcode.base`, `barcode.errors`, `barcode.charsets.code128` are
not in `src/` at all).
-/

deriving instance DecidableEq for Except

namespace Codex

/-- The exception classes raised by `codex.py` (from `barcode.errors`) plus
Python's built-in `KeyError`.  `checksumTen` is the
`BarcodeError('Checksum can not be 10 for PZN.')` raised by
`PZN.calculate_checksum`; `illegalCharacter` carries the list of offending
characters that `check_code` interpolates into its message (for the PZN
"can only contain numbers" message, which names no characters, the list is
empty). -/
inductive PyError where
  | illegalCharacter (wrong : List Char)
  | numberOfDigits (expected got : Nat)
  | keyError (c : Char)
  | checksumTen
  | noChecksumChar
  deriving DecidableEq

/-- `REF`: the Code 39 alphabet, digits then uppercase letters then the
seven punctuation characters, in source order (codex.py lines 20-21). -/
def REF : List Char := "0123456789ABCDEFGHIJKLMNOPQRSTUVWXYZ-. $/+%".toList

/-- `CODES`: the 43 Code 39 bar/space patterns (codex.py lines 24-40). -/
def CODES : List (List Char) :=
  ["101000111011101", "111010001010111", "101110001010111",
   "111011100010101", "101000111010111", "111010001110101",
   "101110001110101", "101000101110111", "111010001011101",
   "101110001011101", "111010100010111", "101110100010111",
   "111011101000101", "101011100010111", "111010111000101",
   "101110111000101", "101010001110111", "111010100011101",
   "101110100011101", "101011100011101", "111010101000111",
   "101110101000111", "111011101010001", "101011101000111",
   "111010111010001", "101110111010001", "101010111000111",
   "111010101110001", "101110101110001", "101011101110001",
   "111000101010111", "100011101010111", "111000111010101",
   "100010111010111", "111000101110101", "100011101110101",
   "100010101110111", "111000101011101", "100011101011101",
   "100010001000101", "100010001010001", "100010100010001",
   "101000100010001"].map String.toList

/-- `EDGE`: the Code 39 start/stop guard pattern (codex.py line 42). -/
def EDGE : List Char := "100010111011101".toList

/-- `MIDDLE`: the single-width inter-character gap (codex.py line 43). -/
def MIDDLE : List Char := "0".toList

/-- `MAP = dict(zip(REF, enumerate(CODES)))` (codex.py line 46): each
alphabet character paired with its (ordinal, pattern) entry. -/
def MAP : List (Char × Nat × List Char) := REF.zip CODES.enum

/-- Dictionary lookup `MAP[c]`; `none` models Python's `KeyError`. -/
def mapLookup (c : Char) : Option (Nat × List Char) :=
  (MAP.find? (fun kv => kv.fst == c)).map (fun kv => kv.snd)

/-- The ordinal `MAP[c][0]` with a junk default (used only after a lookup
is known to succeed). -/
def ordOf (c : Char) : Nat := ((mapLookup c).getD (0, [])).fst

/-- The pattern `MAP[c][1]` with a junk default (used only after a lookup
is known to succeed). -/
def patternOf (c : Char) : List Char := ((mapLookup c).getD (0, [])).snd

/-- `check_code(code, name, allowed)` (codex.py lines 49-57): collect, in
order and with duplicates, the characters outside `allowed`; raise
`IllegalCharacterError` naming them if any. -/
def checkCode (code : List Char) (allowed : List Char) : Except PyError Unit :=
  let wrong := code.filter (fun c => !(allowed.contains c))
  if wrong = [] then .ok () else .error (.illegalCharacter wrong)

/-- ASCII lowercase letters. -/
def lowers : List Char := "abcdefghijklmnopqrstuvwxyz".toList

/-- ASCII uppercase letters. -/
def uppers : List Char := "ABCDEFGHIJKLMNOPQRSTUVWXYZ".toList

/-- One character of Python's `str.upper()`, restricted to ASCII (the only
case the encoders can accept: every alphabet involved is ASCII). -/
def upperChar (c : Char) : Char :=
  match (lowers.zip uppers).find? (fun p => p.fst == c) with
  | some p => p.snd
  | none => c

/-- Python's `code.upper()` on the embedded string. -/
def pyUpper (code : List Char) : List Char := code.map upperChar

/-- `Code39.calculate_checksum` (codex.py lines 90-94):
`check = sum(MAP[x][0] for x in code) % 43`, then the first `k` in `MAP`
with `MAP[k][0] == check`.  Python raises `KeyError` at the first
character absent from `MAP`; here the scan for that first offender is made
explicit and the sum then uses total lookups, which agrees with the source
on every input.  The `for` loop falling through (returning `None`) is the
unreachable `noChecksumChar`. -/
def code39Checksum (code : List Char) : Except PyError Char :=
  match code.find? (fun c => (mapLookup c).isNone) with
  | some c => .error (.keyError c)
  | none =>
    let check := (code.map ordOf).sum % 43
    match MAP.find? (fun kv => kv.snd.fst == check) with
    | some kv => .ok kv.fst
    | none => .error .noChecksumChar

/-- `Code39.__init__` (codex.py lines 75-80): uppercase the input, append
the checksum character when `add_checksum` is true, then `check_code` the
stored code against `REF`.  Returns the stored `self.code` (which
`get_fullcode` and `__str__` report unchanged). -/
def code39Init (code : List Char) (addChecksum : Bool) : Except PyError (List Char) :=
  let up := pyUpper code
  match (if addChecksum then (code39Checksum up).map (fun k => up ++ [k]) else .ok up) with
  | .error e => .error e
  | .ok stored =>
    match checkCode stored REF with
    | .error e => .error e
    | .ok _ => .ok stored

/-- Python's `sep.join(parts)`. -/
def pyJoin (sep : List Char) (parts : List (List Char)) : List Char :=
  match parts with
  | [] => []
  | x :: xs => xs.foldl (fun acc s => acc ++ sep ++ s) x

/-- `Code39.build` (codex.py lines 96-101): `MIDDLE.join([EDGE] + [MAP[c][1]
for c in code] + [EDGE])`.  The source returns this single string in a
one-element list; we return the string.  A character outside `MAP` raises
`KeyError` (unreachable after `__init__`). -/
def code39Build (code : List Char) : Except PyError (List Char) :=
  match code.find? (fun c => (mapLookup c).isNone) with
  | some c => .error (.keyError c)
  | none => .ok (pyJoin MIDDLE ([EDGE] ++ code.map patternOf ++ [EDGE]))

/-- Python's `int(c)` on a single decimal-digit character. -/
def pyInt (c : Char) : Nat := c.toNat - 48

/-- Python's `str.isdigit()`: non-empty and all decimal digits. -/
def pyIsdigit (l : List Char) : Bool := !l.isEmpty && l.all Char.isDigit

/-- The weighted sum of `PZN.calculate_checksum` (codex.py line 139):
`sum(int(x) * int(y) for x, y in enumerate(pzn, start=2))` — each digit
times its position index, positions starting at 2. -/
def pznWeightedSum (pzn : List Char) : Nat :=
  (pzn.enum.map (fun p => (p.fst + 2) * pyInt p.snd)).sum

/-- The spec's PZN weighted-sum formula, stated from the spec's words
(section 4.2): "each digit (1-indexed from position 2 through 7) is
multiplied by its position index and summed" — a plain recursion carrying
the position, to be compared with the source's `enumerate(..., start=2)`
expression. -/
def pznSpecSumFrom (pos : Nat) : List Char → Nat
  | [] => 0
  | d :: ds => pos * pyInt d + pznSpecSumFrom (pos + 1) ds

/-- `PZN.calculate_checksum` (codex.py lines 138-144): weighted sum modulo
11; a remainder of 10 raises `BarcodeError`. -/
def pznChecksum (pzn : List Char) : Except PyError Nat :=
  let checksum := pznWeightedSum pzn % 11
  if checksum = 10 then .error .checksumTen else .ok checksum

/-- The single digit character of a checksum value 0-9 (Python's
`'{0}{1}'.format(pzn, checksum)` renders the int in decimal; on the
reachable values 0..9 that is one character). -/
def digitChar (n : Nat) : Char := Char.ofNat (48 + n)

/-- `PZN.__init__` (codex.py lines 123-133): truncate to the first 6
characters, require `isdigit`, require length exactly 6, append the
weighted mod-11 checksum digit, then delegate `'PZN-' + pzn` to
`Code39.__init__` with `add_checksum=False`.  Returns the stored Code 39
code; `get_fullcode` reports the same `'PZN-' + pzn` string. -/
def pznInit (pzn : List Char) : Except PyError (List Char) :=
  let pzn := pzn.take 6
  if !(pyIsdigit pzn) then .error (.illegalCharacter [])
  else if pzn.length ≠ 6 then .error (.numberOfDigits 6 pzn.length)
  else
    match pznChecksum pzn with
    | .error e => .error e
    | .ok chk => code39Init ("PZN-".toList ++ pzn ++ [digitChar chk]) false

/-! ### Code 128 -/

/-- The three Code 128 charsets (codex.py line 155 initializes to `'B'`). -/
inductive Charset where
  | A
  | B
  | C
  deriving DecidableEq

/-- Modelled from the spec: the key set of the `code128.A` dictionary
(`barcode/charsets/code128.py` is not under `src/`).  Glossary: "A:
control+upper+digits". -/
def code128Akey (c : Char) : Bool :=
  c.toNat < 32 || c.isUpper || c.isDigit

/-- Modelled from the spec: the key set of the `code128.B` dictionary
(`barcode/charsets/code128.py` is not under `src/`).  Glossary: "B:
printable ASCII". -/
def code128Bkey (c : Char) : Bool :=
  32 ≤ c.toNat && c.toNat ≤ 126

/-- Modelled from the spec: `code128.ALL`, the validation alphabet —
"IllegalCharacter if any input character is outside the union of subsets
A, B, C" (spec 4.5); a single character is never a C key (C's keys are
digit pairs), so the union of single-character keys is A ∪ B. -/
def code128ALL (c : Char) : Bool :=
  code128Akey c || code128Bkey c

/-- The `look_next` lookahead of `_maybe_switch_charset` (codex.py lines
184-191): count the leading run of decimal digits in the ten-character
window starting at the scan position and test whether it exceeds 3.  The
source computes the window as `self.code[i:i + 10]` where `i` is an
undefined name inside the method (a `NameError` at runtime); following the
spec's design note the window here starts at the true current position
`pos`. -/
def lookNext (code : List Char) (pos : Nat) : Bool :=
  (((code.drop pos).take 10).takeWhile Char.isDigit).length > 3

/-- The length of the run of consecutive decimal digits starting at `pos`
(the quantity `look_next` samples through its ten-character window). -/
def digitRun (code : List Char) (pos : Nat) : Nat :=
  ((code.drop pos).takeWhile Char.isDigit).length

/-- The charset after `_maybe_switch_charset` runs at position `pos`
(codex.py lines 180-214, with the lookahead window corrected to start at
`pos` per the spec's design note).  The `_buffer` is not consulted by any
charset decision, so the charset evolution is a function of the charset,
the code and the position alone. -/
def stepCharset (cs : Charset) (code : List Char) (pos : Nat) : Charset :=
  match code.get? pos with
  | none => cs
  | some char =>
    match cs with
    | .C =>
      if !char.isDigit then
        if code128Bkey char then .B
        else if code128Akey char then .A
        else .C
      else .C
    | .B =>
      if lookNext code pos then .C
      else if !code128Bkey char && code128Akey char then .A
      else .B
    | .A =>
      if lookNext code pos then .C
      else if !code128Akey char && code128Bkey char then .B
      else .A

/-- Whether `_maybe_switch_charset` at position `pos` emits a switch to
charset C (`self._new_charset('C')`, codex.py lines 203-204 and 209-210):
only from A or B, and exactly when `look_next()` holds. -/
def emitsToC (cs : Charset) (code : List Char) (pos : Nat) : Bool :=
  match cs with
  | .C => false
  | .B => lookNext code pos
  | .A => lookNext code pos

/-- The charset held on entering position `p` of `Code128.build`'s loop
(codex.py lines 216-219): initially `'B'` (line 155), then updated by
`_maybe_switch_charset` at each earlier position. -/
def chAt (code : List Char) : Nat → Charset
  | 0 => .B
  | p + 1 => stepCharset (chAt code p) code p

/-- Whether position `p` starts a digit run: it is position 0 or the
previous character is not a decimal digit. -/
def isRunStart (code : List Char) (p : Nat) : Bool :=
  p == 0 || !(code.getD (p - 1) ' ').isDigit

/-- Modelled from the spec: the symbol ordinal of a character under
charset B — the `code128.B` table is not under `src/`; B covers printable
ASCII, two digits per symbol only under C. -/
def symB (c : Char) : Option Nat :=
  if 32 ≤ c.toNat && c.toNat ≤ 126 then some (c.toNat - 32) else none

/-- Modelled from the spec: the symbol ordinal of a character under
charset A — the `code128.A` table is not under `src/`. -/
def symA (c : Char) : Option Nat :=
  if c.toNat < 32 then some (c.toNat + 64)
  else if c.toNat ≤ 95 then some (c.toNat - 32)
  else none

/-- Modelled from the spec: `self._convert` of a single character under
the active charset (the method body lies beyond the end of the truncated
`codex.py`).  A lone character has no C-table entry. -/
def convert1 (cs : Charset) (c : Char) : Option Nat :=
  match cs with
  | .A => symA c
  | .B => symB c
  | .C => none

/-- The switch-code ordinal `TO_A`/`TO_B`/`TO_C` emitted by
`_new_charset` (values modelled from the spec's Code 128 charset
description; the table is not under `src/`). -/
def switchVal (cs : Charset) : Nat :=
  match cs with
  | .A => 101
  | .B => 100
  | .C => 99

/-- Encoder state during `Code128.build`: the active charset
(`self._charset`), the buffered odd digit (`self._buffer`) and the symbol
ordinals emitted so far. -/
structure Enc where
  charset : Charset
  buffer : List Char
  vals : List Nat
  deriving DecidableEq

/-- The reachable-state invariant of the Code 128 emission loop: the
digit buffer is empty or holds one decimal digit. -/
def EncInv (st : Enc) : Prop :=
  st.buffer = [] ∨ ∃ b, st.buffer = [b] ∧ b.isDigit = true

/-- `_maybe_switch_charset` (codex.py lines 180-214) acting on the full
encoder state: possibly switch charset (emitting one switch symbol), and
when leaving C with a single buffered digit, flush it through
`self._convert` under the new charset.  `none` models an exception from
the flush conversion (unreachable on validated input). -/
def maybeSwitch (st : Enc) (code : List Char) (pos : Nat) : Option Enc :=
  match code.get? pos with
  | none => some st
  | some char =>
    match st.charset with
    | .C =>
      if !char.isDigit then
        let target : Charset :=
          if code128Bkey char then .B
          else if code128Akey char then .A
          else .C
        let sw : List Nat :=
          if code128Bkey char || code128Akey char then [switchVal target] else []
        match st.buffer with
        | [b] =>
          match convert1 target b with
          | some v => some { charset := target, buffer := [], vals := st.vals ++ sw ++ [v] }
          | none => none
        | _ => some { st with charset := target, vals := st.vals ++ sw }
      else some st
    | .B =>
      if lookNext code pos then some { st with charset := .C, vals := st.vals ++ [99] }
      else if !code128Bkey char && code128Akey char then
        some { st with charset := .A, vals := st.vals ++ [101] }
      else some st
    | .A =>
      if lookNext code pos then some { st with charset := .C, vals := st.vals ++ [99] }
      else if !code128Akey char && code128Bkey char then
        some { st with charset := .B, vals := st.vals ++ [100] }
      else some st

/-- Modelled from the spec: emitting one input character under the active
charset (the emission half of `Code128.build`'s loop body, beyond the end
of the truncated `codex.py`).  Under C digits are buffered and emitted two
at a time as the pair value; under A or B the character's table ordinal is
emitted. -/
def emitChar (st : Enc) (char : Char) : Option Enc :=
  match st.charset with
  | .C =>
    if char.isDigit then
      match st.buffer with
      | [] => some { st with buffer := [char] }
      | [b] => some { st with buffer := [], vals := st.vals ++ [10 * pyInt b + pyInt char] }
      | _ => none
    else none
  | .A =>
    match symA char with
    | some v => some { st with vals := st.vals ++ [v] }
    | none => none
  | .B =>
    match symB char with
    | some v => some { st with vals := st.vals ++ [v] }
    | none => none

/-- One iteration of `Code128.build`'s loop at position `pos`: run the
transition policy, then emit the character. -/
def code128Step (code : List Char) (st : Enc) (pos : Nat) : Option Enc :=
  match maybeSwitch st code pos with
  | none => none
  | some st' =>
    match code.get? pos with
    | none => some st'
    | some char => emitChar st' char

/-- The loop of `Code128.build` (codex.py lines 216-219 plus its missing
continuation): start symbol for the initial charset B (`START_CODES['B']`,
ordinal 104 modelled from the spec), then one `code128Step` per input
position. -/
def code128Loop (code : List Char) : Option Enc :=
  (List.range code.length).foldlM (code128Step code) ⟨.B, [], [104]⟩

/-- Modelled from the spec: after the loop an odd leftover buffered digit
"must be flushed as a single symbol" outside C — switch to B and emit the
digit's B ordinal. -/
def code128Finish (st : Enc) : Option (List Nat) :=
  match st.buffer with
  | [] => some st.vals
  | [b] =>
    match symB b with
    | some v => some (st.vals ++ [100, v])
    | _ => none
  | _ => none

/-- All symbol ordinals emitted by the loop (start, switches, characters,
leftover flush), before the checksum and stop symbols. -/
def code128Vals (code : List Char) : Option (List Nat) :=
  match code128Loop code with
  | none => none
  | some st => code128Finish st

/-- Modelled from the spec: the Code 128 check value — "weighted sum of
all emitted symbol ordinals, modulo 103" (spec 4.5); the start symbol and
the first symbol after it weigh 1, every later symbol weighs its
position. -/
def weightedSum (vals : List Nat) : Nat :=
  (vals.enum.map (fun p => max p.fst 1 * p.snd)).sum

/-- Modelled from the spec: the full `Code128.build` output as symbol
ordinals — the loop's symbols, then the checksum symbol, then the fixed
stop symbol (ordinal 106). -/
def code128Build (code : List Char) : Option (List Nat) :=
  match code128Vals code with
  | none => none
  | some vs => some (vs ++ [weightedSum vs % 103, 106])

/-! ### A Code 39 pattern decoder (claim C9's reverse lookup) -/

/-- Reverse lookup in the Code 39 symbol table: the alphabet character
whose 15-module pattern is `pat`. -/
def revLookup (pat : List Char) : Option Char :=
  (MAP.find? (fun kv => kv.snd.snd == pat)).map (fun kv => kv.fst)

/-- Decode the part of a built Code 39 pattern that follows the leading
edge guard: either the closing gap-plus-edge-guard, or a single-width gap,
a 15-module character pattern (mapped back through the table) and the
rest. -/
def decodeBody (l : List Char) : Option (List Char) :=
  if l = MIDDLE ++ EDGE then some []
  else
    match l with
    | [] => none
    | g :: rest =>
      if g = '0' then
        match revLookup (rest.take 15), decodeBody (rest.drop 15) with
        | some c, some tl => some (c :: tl)
        | _, _ => none
      else none
termination_by l.length
decreasing_by simp only [List.length_drop, List.length_cons]; omega

/-- Decode a built Code 39 pattern: split off the leading edge guard, then
decode gap-separated 15-module character patterns up to the closing edge
guard. -/
def decodePattern (s : List Char) : Option (List Char) :=
  if s.take 15 = EDGE then decodeBody (s.drop 15) else none

/-- The tail of a built Code 39 pattern after the leading edge guard, as a
recursion: one gap and one character pattern per character, then the
closing gap and edge guard. -/
def bodyList : List Char → List Char
  | [] => MIDDLE ++ EDGE
  | c :: cs => MIDDLE ++ patternOf c ++ bodyList cs

/-- The pattern layout claimed for the Code 39 builder in claim C3, stated
from the claim's words: the edge guard, then the first character's pattern
with no gap before it, then gap-separated patterns, then a gap and the
closing edge guard. -/
def claimedBuildNoLeadingGap (code : List Char) : List Char :=
  EDGE ++ (code.map patternOf).foldr (fun p acc => p ++ MIDDLE ++ acc) EDGE

/-! ### Helper lemmas -/

theorem find?_ext {α : Type} {p q : α → Bool} (h : ∀ a, p a = q a) :
    ∀ l : List α, l.find? p = l.find? q := by
  intro l
  induction l with
  | nil => rfl
  | cons a l ih =>
    by_cases ha : p a = true
    · rw [List.find?_cons_of_pos _ ha, List.find?_cons_of_pos _ (by rw [← h a]; exact ha)]
    · rw [List.find?_cons_of_neg _ ha, List.find?_cons_of_neg _ (by rw [← h a]; exact ha), ih]

theorem map_fst_MAP : MAP.map (fun kv => kv.fst) = REF := by decide

theorem mapLookup_isNone_eq (c : Char) :
    (mapLookup c).isNone = !(REF.contains c) := by
  unfold mapLookup
  rw [Option.isNone_map']
  cases hf : MAP.find? (fun kv => kv.fst == c) with
  | some kv =>
    have hkv := List.mem_of_find?_eq_some hf
    have hp := List.find?_some hf
    have hc : c ∈ REF := by
      rw [← map_fst_MAP]
      exact List.mem_map.mpr ⟨kv, hkv, eq_of_beq hp⟩
    simp [List.contains, hc]
  | none =>
    have hnone := List.find?_eq_none.mp hf
    have hc : c ∉ REF := by
      intro hc
      rw [← map_fst_MAP] at hc
      rcases List.mem_map.mp hc with ⟨kv, hkv, hfst⟩
      exact hnone kv hkv (by simp [hfst])
    simp [List.contains, hc]

theorem findMissing_eq (l : List Char) :
    l.find? (fun c => (mapLookup c).isNone) = l.find? (fun c => !(REF.contains c)) :=
  find?_ext mapLookup_isNone_eq l

theorem find?_not_eq_none_of_all {α : Type} {l : List α} {p : α → Bool}
    (h : l.all p = true) : l.find? (fun a => !(p a)) = none := by
  rw [List.find?_eq_none]
  intro x hx
  simp [List.all_eq_true.mp h x hx]

theorem mem_REF_of_contains {c : Char} (h : REF.contains c = true) : c ∈ REF := by
  simpa [List.contains] using h

theorem ordOf_eq_indexOf : ∀ c ∈ REF, ordOf c = REF.indexOf c := by decide

theorem map_find?_ord :
    ∀ n < 43, MAP.find? (fun kv => kv.snd.fst == n)
      = some (REF.getD n ' ', n, CODES.getD n []) := by decide

theorem find?_some_filter_ne_nil {α : Type} {l : List α} {p : α → Bool} {a : α}
    (h : l.find? p = some a) : l.filter p ≠ [] := by
  have ha := List.mem_of_find?_eq_some h
  have hp := List.find?_some h
  exact List.ne_nil_of_mem (List.mem_filter.mpr ⟨ha, hp⟩)

theorem zip_lu_image_not_key :
    (lowers.zip uppers).all
      (fun p => ((lowers.zip uppers).find? (fun q => q.fst == p.snd)).isNone) = true := by
  decide

theorem upperChar_idem (c : Char) : upperChar (upperChar c) = upperChar c := by
  unfold upperChar
  cases hf : (lowers.zip uppers).find? (fun p => p.fst == c) with
  | none => rw [hf]
  | some p =>
    have hmem := List.mem_of_find?_eq_some hf
    have hnone := List.all_eq_true.mp zip_lu_image_not_key p hmem
    rw [Option.isNone_iff_eq_none] at hnone
    rw [hnone]

theorem pyUpper_idem (l : List Char) : pyUpper (pyUpper l) = pyUpper l := by
  induction l with
  | nil => rfl
  | cons a l ih =>
    simp only [pyUpper, List.map_cons] at *
    rw [upperChar_idem]
    exact congrArg _ (by simpa [pyUpper] using ih)

theorem enumFrom_weighted_eq (l : List Char) :
    ∀ k, ((l.enumFrom k).map (fun p => (p.fst + 2) * pyInt p.snd)).sum
      = pznSpecSumFrom (k + 2) l := by
  induction l with
  | nil => intro k; rfl
  | cons d ds ih =>
    intro k
    simp only [List.enumFrom, List.map_cons, List.sum_cons, pznSpecSumFrom]
    rw [ih (k + 1)]

theorem pznWeightedSum_eq_spec (l : List Char) :
    pznWeightedSum l = pznSpecSumFrom 2 l := by
  unfold pznWeightedSum List.enum
  simpa using enumFrom_weighted_eq l 0

theorem pyJoin_foldl (sep : List Char) (xs : List (List Char)) :
    ∀ acc : List Char,
      xs.foldl (fun a s => a ++ sep ++ s) acc
        = acc ++ (xs.map (fun s => sep ++ s)).flatten := by
  induction xs with
  | nil => intro acc; simp
  | cons x xs ih =>
    intro acc
    rw [List.foldl_cons, ih]
    simp [List.append_assoc]

theorem pyJoin_edge (sep e : List Char) (ps : List (List Char)) (hne : ps ≠ []) :
    pyJoin sep (e :: (ps ++ [e])) = e ++ sep ++ pyJoin sep ps ++ sep ++ e := by
  cases ps with
  | nil => exact absurd rfl hne
  | cons p ps' =>
    simp only [pyJoin, List.cons_append, List.nil_append, List.foldl_cons, pyJoin_foldl]
    simp [List.append_assoc]

theorem patternOf_length : ∀ c ∈ REF, (patternOf c).length = 15 := by decide

theorem revLookup_patternOf : ∀ c ∈ REF, revLookup (patternOf c) = some c := by
  decide

theorem bodyList_length_ge : ∀ cs : List Char, 16 ≤ (bodyList cs).length := by
  intro cs
  induction cs with
  | nil => decide
  | cons c cs ih =>
    simp only [bodyList, List.length_append]
    omega

theorem flatten_gap_eq_bodyList : ∀ cs : List Char,
    ((cs.map patternOf ++ [EDGE]).map (fun s => MIDDLE ++ s)).flatten
      = bodyList cs := by
  intro cs
  induction cs with
  | nil => simp [bodyList]
  | cons c cs ih =>
    simp only [bodyList, List.map_cons, List.cons_append, List.flatten_cons, ih]

theorem code39Build_eq_bodyList (code : List Char)
    (h : code.all (fun c => REF.contains c) = true) :
    code39Build code = .ok (EDGE ++ bodyList code) := by
  have hfind : code.find? (fun c => (mapLookup c).isNone) = none := by
    rw [findMissing_eq]; exact find?_not_eq_none_of_all h
  have hb : code39Build code
      = .ok (pyJoin MIDDLE (EDGE :: (code.map patternOf ++ [EDGE]))) := by
    simp [code39Build, hfind]
  rw [hb]
  simp only [pyJoin, pyJoin_foldl, flatten_gap_eq_bodyList]

theorem decodeBody_bodyList :
    ∀ cs : List Char, cs.all (fun c => REF.contains c) = true →
      decodeBody (bodyList cs) = some cs := by
  intro cs
  induction cs with
  | nil =>
    intro _
    show decodeBody (MIDDLE ++ EDGE) = some []
    rw [decodeBody.eq_def]
    simp
  | cons c cs ih =>
    intro h
    simp only [List.all_cons, Bool.and_eq_true] at h
    obtain ⟨hc, hcs⟩ := h
    have hcm : c ∈ REF := mem_REF_of_contains hc
    have hlen15 : (patternOf c).length = 15 := patternOf_length c hcm
    have hb : bodyList (c :: cs) = '0' :: (patternOf c ++ bodyList cs) := by
      simp [bodyList, MIDDLE, List.append_assoc]
    have hne : ('0' :: (patternOf c ++ bodyList cs)) ≠ MIDDLE ++ EDGE := by
      intro heq
      have h1 := congrArg List.length heq
      have h2 := bodyList_length_ge cs
      have h3 : (MIDDLE ++ EDGE).length = 16 := by decide
      rw [h3] at h1
      simp only [List.length_cons, List.length_append, hlen15] at h1
      omega
    have ht : ((patternOf c ++ bodyList cs).take 15) = patternOf c :=
      List.take_left' hlen15
    have hd : ((patternOf c ++ bodyList cs).drop 15) = bodyList cs :=
      List.drop_left' hlen15
    rw [hb, decodeBody.eq_def]
    simp [hne, ht, hd, revLookup_patternOf c hcm, ih hcs]

/-! ### Claim C2 -/

/-- Claim C2 counterexample: with checksum appending requested, the input
`"!"` (whose character is outside the Code 39 alphabet) makes the encode
call fail with Python's `KeyError` from the checksum-table lookup, not
with `IllegalCharacterError` naming the offender: `check_code` runs only
after `calculate_checksum`. -/
theorem claimC2_counterexample :
    code39Init ['!'] true = .error (.keyError '!')
    ∧ code39Init ['!'] true ≠ .error (.illegalCharacter ['!']) := by
  constructor
  · decide
  · decide

/-- Claim C2 as amended: validation runs after checksum computation, not
before.  When the uppercased input has a first character outside the
alphabet, an encode call with `add_checksum=True` fails with `KeyError` on
that character (the checksum-table lookup happens first), while
`add_checksum=False` fails with `IllegalCharacterError` naming the
offending characters in order. -/
theorem claimC2 (code : List Char) (c0 : Char)
    (h : (pyUpper code).find? (fun c => !(REF.contains c)) = some c0) :
    code39Init code true = .error (.keyError c0)
    ∧ code39Init code false
      = .error (.illegalCharacter
          ((pyUpper code).filter (fun c => !(REF.contains c)))) := by
  have hck : code39Checksum (pyUpper code) = .error (.keyError c0) := by
    unfold code39Checksum
    rw [findMissing_eq, h]
  have hfil := find?_some_filter_ne_nil h
  have hcheck : checkCode (pyUpper code) REF
      = .error (.illegalCharacter
          ((pyUpper code).filter (fun c => !(REF.contains c)))) := by
    simp only [checkCode]
    rw [if_neg hfil]
  constructor
  · simp [code39Init, hck, Except.map]
  · simp [code39Init, hcheck]

theorem claimC2_witness :
    code39Init ['$', '!'] true = .error (.keyError '!')
    ∧ code39Init ['$', '!'] false = .error (.illegalCharacter ['!']) :=
  claimC2 ['$', '!'] '!' (by decide)

/-! ### Claim C3 -/

/-- Claim C3 counterexample: at the one-character code `"0"` the built
pattern places a gap between the leading edge guard and the first
character's pattern (`'0'.join` separates every adjacent pair), so it
differs from the claimed layout with no gap there. -/
theorem claimC3_counterexample :
    code39Build "0".toList
      = .ok (EDGE ++ MIDDLE ++ patternOf '0' ++ MIDDLE ++ EDGE)
    ∧ EDGE ++ MIDDLE ++ patternOf '0' ++ MIDDLE ++ EDGE
      ≠ claimedBuildNoLeadingGap "0".toList := by
  constructor
  · decide
  · decide

/-- Claim C3 as amended: for every non-empty validated code the builder
returns the edge guard, a gap, the characters' patterns separated by
single-width gaps, a gap, and the closing edge guard — a gap separator
also stands between the leading edge guard and the first character's
pattern, symmetrically with the closing side. -/
theorem claimC3 (code : List Char) (hne : code ≠ [])
    (h : code.all (fun c => REF.contains c) = true) :
    code39Build code
      = .ok (EDGE ++ MIDDLE ++ pyJoin MIDDLE (code.map patternOf)
          ++ MIDDLE ++ EDGE) := by
  have hfind : code.find? (fun c => (mapLookup c).isNone) = none := by
    rw [findMissing_eq]; exact find?_not_eq_none_of_all h
  have hne' : code.map patternOf ≠ [] := by
    cases code with
    | nil => exact absurd rfl hne
    | cons a t => simp
  have hb : code39Build code
      = .ok (pyJoin MIDDLE (EDGE :: (code.map patternOf ++ [EDGE]))) := by
    simp [code39Build, hfind]
  rw [hb, pyJoin_edge _ _ _ hne']

theorem claimC3_witness :
    code39Build "0".toList
      = .ok (EDGE ++ MIDDLE ++ pyJoin MIDDLE ("0".toList.map patternOf)
          ++ MIDDLE ++ EDGE) :=
  claimC3 "0".toList (by decide) (by decide)

/-! ### Claim C4 -/

/-- Claim C4 counterexample: the all-digit input `"1234567"` has 7 digits
yet construction succeeds (the constructor truncates to the first 6
characters before any check) instead of failing with
`NumberOfDigitsError`. -/
theorem claimC4_counterexample :
    pznInit "1234567".toList = .ok "PZN-1234562".toList
    ∧ pznInit "1234567".toList ≠ .error (.numberOfDigits 6 7) := by
  constructor
  · decide
  · decide

/-- Claim C4 as amended: the constructor truncates its input to the first
6 characters before every check, so only all-digit inputs of length 1
through 5 fail with `NumberOfDigitsError` (still before any checksum
arithmetic), while an input of 7 or more digits is silently encoded from
its first 6 digits rather than rejected. -/
theorem claimC4 :
    (∀ l : List Char, l.all Char.isDigit = true → l ≠ [] → l.length < 6 →
      pznInit l = .error (.numberOfDigits 6 l.length))
    ∧ (∀ l : List Char, pznInit l = pznInit (l.take 6)) := by
  constructor
  · intro l hd hne hlen
    unfold pznInit
    have ht : l.take 6 = l := List.take_of_length_le (by omega)
    rw [ht]
    have hie : l.isEmpty = false := by
      cases l with
      | nil => exact absurd rfl hne
      | cons a t => rfl
    have h6 : l.length ≠ 6 := by omega
    simp [pyIsdigit, hie, hd, h6]
  · intro l
    unfold pznInit
    have ht : (l.take 6).take 6 = l.take 6 :=
      List.take_of_length_le (by simp [List.length_take])
    rw [ht]

theorem claimC4_witness :
    pznInit "12345".toList = .error (.numberOfDigits 6 5) :=
  claimC4.1 "12345".toList (by decide) (by decide) (by decide)

/-! ### Claim C5 -/

/-- Claim C5: every 6-digit PZN input whose weighted sum (digits times
position indices 2 through 7) modulo 11 equals 10 makes the encode call
fail with the dedicated checksum-domain error, producing no check
digit. -/
theorem claimC5 (l : List Char) (h6 : l.length = 6)
    (hd : l.all Char.isDigit = true) (h10 : pznWeightedSum l % 11 = 10) :
    pznInit l = .error .checksumTen := by
  unfold pznInit
  have ht : l.take 6 = l := List.take_of_length_le (by omega)
  rw [ht]
  have hie : l.isEmpty = false := by
    cases l with
    | nil => simp at h6
    | cons a t => rfl
  simp [pyIsdigit, hie, hd, h6, pznChecksum, h10]

theorem claimC5_witness : pznInit "500000".toList = .error .checksumTen :=
  claimC5 "500000".toList (by decide) (by decide) (by decide)

/-! ### Claim C6 -/

/-- Claim C6: on 6-digit codes the PZN checksum is the spec's weighted sum
(each digit times its position index, positions 2 through 7) modulo 11
whenever that is representable; concretely the input `"100000"` has
weighted sum 2, checksum value 2, and the reported full code is
`"PZN-1000002"` (`get_fullcode` returns the stored `'PZN-' + pzn`
unchanged). -/
theorem claimC6 :
    (∀ l : List Char, l.length = 6 → l.all Char.isDigit = true →
      pznSpecSumFrom 2 l % 11 ≠ 10 →
      pznChecksum l = .ok (pznSpecSumFrom 2 l % 11))
    ∧ pznChecksum "100000".toList = .ok 2
    ∧ pznInit "100000".toList = .ok "PZN-1000002".toList := by
  refine ⟨?_, by decide, by decide⟩
  intro l _ _ h10
  unfold pznChecksum
  rw [pznWeightedSum_eq_spec]
  simp [h10]

theorem claimC6_witness :
    pznChecksum "100000".toList = .ok (pznSpecSumFrom 2 "100000".toList % 11) :=
  claimC6.1 "100000".toList (by decide) (by decide) (by decide)

/-! ### Claim C7 -/

/-- Claim C7: for every code whose characters all lie in the Code 39
alphabet, `calculate_checksum` succeeds and returns the alphabet member
whose ordinal equals the sum of the ordinals of the code's characters
modulo 43 — a deterministic total function on validated codes (the
remainder is below 43, the alphabet size, so the reverse lookup always
finds a character). -/
theorem claimC7 (code : List Char)
    (h : code.all (fun c => REF.contains c) = true) :
    code39Checksum code
      = .ok (REF.getD ((code.map (fun c => REF.indexOf c)).sum % 43) ' ') := by
  have hfind : code.find? (fun c => (mapLookup c).isNone) = none := by
    rw [findMissing_eq]; exact find?_not_eq_none_of_all h
  have hmap : code.map ordOf = code.map (fun c => REF.indexOf c) :=
    List.map_congr_left (fun a ha =>
      ordOf_eq_indexOf a (mem_REF_of_contains (List.all_eq_true.mp h a ha)))
  have hlt : (code.map (fun c => REF.indexOf c)).sum % 43 < 43 :=
    Nat.mod_lt _ (by omega)
  simp [code39Checksum, hfind, hmap, map_find?_ord _ hlt]

theorem claimC7_witness :
    code39Checksum "A".toList
      = .ok (REF.getD ((("A".toList).map (fun c => REF.indexOf c)).sum % 43) ' ') :=
  claimC7 "A".toList (by decide)

theorem getD_eq_getElem_of_lt (code : List Char) (q : Nat) (hq : q < code.length) :
    code.getD q ' ' = code[q] := by
  simp [List.getD_eq_getElem?_getD, List.getElem?_eq_getElem hq]

theorem lookNext_iff (code : List Char) (pos : Nat) :
    lookNext code pos = true ↔ 4 ≤ digitRun code pos := by
  unfold lookNext digitRun
  rw [← List.take_takeWhile, List.length_take]
  simp only [decide_eq_true_eq, gt_iff_lt]
  omega

theorem digitRun_pos_lt (code : List Char) (p : Nat) (h : 1 ≤ digitRun code p) :
    p < code.length := by
  by_contra hge
  push_neg at hge
  unfold digitRun at h
  rw [List.drop_eq_nil_of_le hge] at h
  simp at h

theorem digitRun_zero_of_not_digit (code : List Char) (q : Nat)
    (hq : q < code.length) (hnd : code[q].isDigit = false) :
    digitRun code q = 0 := by
  unfold digitRun
  rw [List.drop_eq_getElem_cons hq, List.takeWhile_cons_of_neg (by simp [hnd])]
  rfl

theorem digitRun_succ_of_digit (code : List Char) (q : Nat)
    (hq : q < code.length) (hd : code[q].isDigit = true) :
    digitRun code q = digitRun code (q + 1) + 1 := by
  unfold digitRun
  rw [List.drop_eq_getElem_cons hq, List.takeWhile_cons_of_pos hd]
  simp

theorem lookNext_false_of_le (code : List Char) (p : Nat)
    (h : digitRun code p ≤ 3) : lookNext code p = false := by
  cases hl : lookNext code p
  · rfl
  · have := (lookNext_iff code p).mp hl
    omega

theorem stepCharset_ne_C (cs : Charset) (code : List Char) (q : Nat)
    (hq : q < code.length) (hv : code.all code128ALL = true)
    (hnd : code[q].isDigit = false) :
    stepCharset cs code q ≠ Charset.C := by
  have hget : code.get? q = some code[q] := by
    simp [List.get?_eq_getElem?, List.getElem?_eq_getElem hq]
  have hln : lookNext code q = false :=
    lookNext_false_of_le code q (by rw [digitRun_zero_of_not_digit code q hq hnd]; omega)
  have hall : code128ALL code[q] = true :=
    List.all_eq_true.mp hv _ (List.getElem_mem hq)
  cases cs with
  | C =>
    simp only [stepCharset, hget, hnd, Bool.not_false, if_true]
    unfold code128ALL at hall
    cases hB : code128Bkey code[q] with
    | true => simp [hB]
    | false =>
      cases hA : code128Akey code[q] with
      | true => simp [hA, hB]
      | false => rw [hA, hB] at hall; simp at hall
  | B =>
    simp only [stepCharset, hget, hln]
    by_cases hc : (!code128Bkey code[q] && code128Akey code[q]) = true
    · simp [hc]
    · simp [hc]
  | A =>
    simp only [stepCharset, hget, hln]
    by_cases hc : (!code128Akey code[q] && code128Bkey code[q]) = true
    · simp [hc]
    · simp [hc]

theorem stepCharset_eq_C (cs : Charset) (code : List Char) (q : Nat)
    (hq : q < code.length) (hd : code[q].isDigit = true)
    (hln : lookNext code q = true) :
    stepCharset cs code q = Charset.C := by
  have hget : code[q]? = some code[q] := List.getElem?_eq_getElem hq
  cases cs <;> simp [stepCharset, hget, hd, hln]

/-! ### Claim C1 -/

/-- Claim C1 (of the corrected transition policy, the lookahead window
starting at the true scan position as the spec's design note directs): on
valid input the policy emits a switch to charset C at position `p` exactly
when the run of consecutive decimal digits starting at `p` has length at
least 4 and `p` is the start of that run — so a run of length at most 3
never triggers the switch, and a run of length at least 4 triggers it at
the run's first position and never mid-run. -/
theorem claimC1 (code : List Char) (p : Nat)
    (hv : code.all code128ALL = true) :
    emitsToC (chAt code p) code p
      = (decide (4 ≤ digitRun code p) && isRunStart code p) := by
  by_cases h4 : 4 ≤ digitRun code p
  · have hlt : lookNext code p = true := (lookNext_iff _ _).mpr h4
    have hplen : p < code.length := digitRun_pos_lt code p (by omega)
    cases hrs : isRunStart code p with
    | false =>
      have hp0 : p ≠ 0 := by
        intro h
        subst h
        simp [isRunStart] at hrs
      obtain ⟨q, rfl⟩ : ∃ q, p = q + 1 := ⟨p - 1, by omega⟩
      have hq : q < code.length := by omega
      have hdig : code[q].isDigit = true := by
        simp only [isRunStart, Nat.add_sub_cancel,
          getD_eq_getElem_of_lt code q hq, Bool.or_eq_false_iff,
          Bool.not_eq_false'] at hrs
        exact hrs.2
      have hrun5 : 4 ≤ digitRun code q := by
        rw [digitRun_succ_of_digit code q hq hdig]
        omega
      have hC : chAt code (q + 1) = Charset.C :=
        stepCharset_eq_C _ code q hq hdig ((lookNext_iff _ _).mpr hrun5)
      rw [hC]
      simp [emitsToC]
    | true =>
      have hC : chAt code p ≠ Charset.C := by
        cases p with
        | zero => simp [chAt]
        | succ q =>
          have hq : q < code.length := by omega
          have hnd : code[q].isDigit = false := by
            simp only [isRunStart, Nat.add_sub_cancel,
              getD_eq_getElem_of_lt code q hq, Bool.or_eq_true,
              Bool.not_eq_true'] at hrs
            rcases hrs with h | h
            · simp at h
            · exact h
          exact stepCharset_ne_C _ code q hq hv hnd
      cases hcs : chAt code p with
      | C => exact absurd hcs hC
      | A => simp [emitsToC, hlt, h4]
      | B => simp [emitsToC, hlt, h4]
  · have hlf : lookNext code p = false :=
      lookNext_false_of_le code p (by omega)
    have hd4 : decide (4 ≤ digitRun code p) = false := by simp [h4]
    cases hcs : chAt code p <;> simp [emitsToC, hlf, hd4]

theorem claimC1_witness :
    emitsToC (chAt "AB1234C".toList 2) "AB1234C".toList 2
      = (decide (4 ≤ digitRun "AB1234C".toList 2)
          && isRunStart "AB1234C".toList 2) :=
  claimC1 "AB1234C".toList 2 (by decide)

theorem isDigit_toNat {c : Char} (h : c.isDigit = true) :
    48 ≤ c.toNat ∧ c.toNat ≤ 57 := by
  unfold Char.isDigit at h
  rw [Bool.and_eq_true] at h
  obtain ⟨h1, h2⟩ := h
  exact ⟨UInt32.le_toNat_of_le (by decide) (of_decide_eq_true h1),
    UInt32.toNat_le_of_le (by decide) (of_decide_eq_true h2)⟩

theorem isUpper_toNat {c : Char} (h : c.isUpper = true) :
    65 ≤ c.toNat ∧ c.toNat ≤ 90 := by
  unfold Char.isUpper at h
  rw [Bool.and_eq_true] at h
  obtain ⟨h1, h2⟩ := h
  exact ⟨UInt32.le_toNat_of_le (by decide) (of_decide_eq_true h1),
    UInt32.toNat_le_of_le (by decide) (of_decide_eq_true h2)⟩

theorem symB_some_of_Bkey {c : Char} (h : code128Bkey c = true) :
    symB c = some (c.toNat - 32) := by
  unfold code128Bkey at h
  unfold symB
  rw [if_pos h]

theorem Bkey_of_digit {c : Char} (h : c.isDigit = true) :
    code128Bkey c = true := by
  obtain ⟨h1, h2⟩ := isDigit_toNat h
  unfold code128Bkey
  simp only [Bool.and_eq_true, decide_eq_true_eq]
  omega

theorem symA_some_of_digit {c : Char} (h : c.isDigit = true) :
    symA c = some (c.toNat - 32) := by
  obtain ⟨h1, h2⟩ := isDigit_toNat h
  unfold symA
  rw [if_neg (by omega), if_pos (by omega)]

theorem symA_some_of_Akey {c : Char} (h : code128Akey c = true) :
    ∃ v, symA c = some v := by
  unfold code128Akey at h
  simp only [Bool.or_eq_true, decide_eq_true_eq] at h
  unfold symA
  rcases h with (h | h) | h
  · exact ⟨c.toNat + 64, by rw [if_pos h]⟩
  · obtain ⟨h1, h2⟩ := isUpper_toNat h
    exact ⟨c.toNat - 32, by rw [if_neg (by omega), if_pos (by omega)]⟩
  · obtain ⟨h1, h2⟩ := isDigit_toNat h
    exact ⟨c.toNat - 32, by rw [if_neg (by omega), if_pos (by omega)]⟩

theorem lookNext_head_digit (code : List Char) (pos : Nat)
    (h : lookNext code pos = true) :
    pos < code.length ∧ (code.getD pos ' ').isDigit = true := by
  have h4 := (lookNext_iff code pos).mp h
  have hlt : pos < code.length := digitRun_pos_lt code pos (by omega)
  refine ⟨hlt, ?_⟩
  rw [getD_eq_getElem_of_lt code pos hlt]
  by_contra hnd
  rw [Bool.not_eq_true] at hnd
  rw [digitRun_zero_of_not_digit code pos hlt hnd] at h4
  omega

theorem maybeSwitch_ok (st : Enc) (code : List Char) (pos : Nat)
    (hpos : pos < code.length) (hc : code128ALL code[pos] = true)
    (hinv : EncInv st) :
    ∃ st2, maybeSwitch st code pos = some st2 ∧ EncInv st2
      ∧ (st2.charset = .C → code[pos].isDigit = true)
      ∧ (st2.charset = .B → code128Bkey code[pos] = true)
      ∧ (st2.charset = .A → code128Akey code[pos] = true) := by
  have hget : code[pos]? = some code[pos] := List.getElem?_eq_getElem hpos
  cases hcs : st.charset with
  | C =>
    by_cases hd : code[pos].isDigit = true
    · refine ⟨st, by simp [maybeSwitch, hget, hcs, hd], hinv, fun _ => hd,
        ?_, ?_⟩
      · intro h; rw [hcs] at h; simp at h
      · intro h; rw [hcs] at h; simp at h
    · rw [Bool.not_eq_true] at hd
      cases hBk : code128Bkey code[pos] with
      | true =>
        rcases hinv with h0 | ⟨b, hb, hbd⟩
        · refine ⟨{ st with charset := .B, vals := st.vals ++ [100] },
            ?_, Or.inl h0, ?_, fun _ => rfl, ?_⟩
          · simp [maybeSwitch, hget, hcs, hd, hBk, h0, switchVal]
          · intro h; simp at h
          · intro h; simp at h
        · have hsym : symB b = some (b.toNat - 32) :=
            symB_some_of_Bkey (Bkey_of_digit hbd)
          refine ⟨⟨.B, [], st.vals ++ [100] ++ [b.toNat - 32]⟩,
            ?_, Or.inl rfl, ?_, fun _ => rfl, ?_⟩
          · simp [maybeSwitch, hget, hcs, hd, hBk, hb, switchVal, convert1, hsym]
          · intro h; simp at h
          · intro h; simp at h
      | false =>
        have hAk : code128Akey code[pos] = true := by
          unfold code128ALL at hc
          rw [hBk] at hc
          simpa using hc
        rcases hinv with h0 | ⟨b, hb, hbd⟩
        · refine ⟨{ st with charset := .A, vals := st.vals ++ [101] },
            ?_, Or.inl h0, ?_, ?_, fun _ => hAk⟩
          · simp [maybeSwitch, hget, hcs, hd, hBk, hAk, h0, switchVal]
          · intro h; simp at h
          · intro h; simp at h
        · have hsym : symA b = some (b.toNat - 32) := symA_some_of_digit hbd
          refine ⟨⟨.A, [], st.vals ++ [101] ++ [b.toNat - 32]⟩,
            ?_, Or.inl rfl, ?_, ?_, fun _ => hAk⟩
          · simp [maybeSwitch, hget, hcs, hd, hBk, hAk, hb, switchVal,
              convert1, hsym]
          · intro h; simp at h
          · intro h; simp at h
  | B =>
    by_cases hln : lookNext code pos = true
    · obtain ⟨_, hdig⟩ := lookNext_head_digit code pos hln
      rw [getD_eq_getElem_of_lt code pos hpos] at hdig
      refine ⟨{ st with charset := .C, vals := st.vals ++ [99] },
        by simp [maybeSwitch, hget, hcs, hln], hinv, fun _ => hdig, ?_, ?_⟩
      · intro h; simp at h
      · intro h; simp at h
    · rw [Bool.not_eq_true] at hln
      cases hBk : code128Bkey code[pos] with
      | true =>
        refine ⟨st, by simp [maybeSwitch, hget, hcs, hln, hBk], hinv,
          ?_, fun _ => rfl, ?_⟩
        · intro h; rw [hcs] at h; simp at h
        · intro h; rw [hcs] at h; simp at h
      | false =>
        have hAk : code128Akey code[pos] = true := by
          unfold code128ALL at hc
          rw [hBk] at hc
          simpa using hc
        refine ⟨{ st with charset := .A, vals := st.vals ++ [101] },
          by simp [maybeSwitch, hget, hcs, hln, hBk, hAk], hinv,
          ?_, ?_, fun _ => hAk⟩
        · intro h; simp at h
        · intro h; simp at h
  | A =>
    by_cases hln : lookNext code pos = true
    · obtain ⟨_, hdig⟩ := lookNext_head_digit code pos hln
      rw [getD_eq_getElem_of_lt code pos hpos] at hdig
      refine ⟨{ st with charset := .C, vals := st.vals ++ [99] },
        by simp [maybeSwitch, hget, hcs, hln], hinv, fun _ => hdig, ?_, ?_⟩
      · intro h; simp at h
      · intro h; simp at h
    · rw [Bool.not_eq_true] at hln
      cases hAk : code128Akey code[pos] with
      | true =>
        refine ⟨st, by simp [maybeSwitch, hget, hcs, hln, hAk], hinv,
          ?_, ?_, fun _ => rfl⟩
        · intro h; rw [hcs] at h; simp at h
        · intro h; rw [hcs] at h; simp at h
      | false =>
        have hBk : code128Bkey code[pos] = true := by
          unfold code128ALL at hc
          rw [hAk] at hc
          simpa using hc
        refine ⟨{ st with charset := .B, vals := st.vals ++ [100] },
          by simp [maybeSwitch, hget, hcs, hln, hAk, hBk], hinv,
          ?_, fun _ => hBk, ?_⟩
        · intro h; simp at h
        · intro h; simp at h

theorem emitChar_ok (st : Enc) (c : Char) (hinv : EncInv st)
    (hC : st.charset = .C → c.isDigit = true)
    (hB : st.charset = .B → code128Bkey c = true)
    (hA : st.charset = .A → code128Akey c = true) :
    ∃ st3, emitChar st c = some st3 ∧ EncInv st3 := by
  cases hcs : st.charset with
  | C =>
    have hd := hC hcs
    rcases hinv with h0 | ⟨b, hb, hbd⟩
    · exact ⟨{ st with buffer := [c] }, by simp [emitChar, hcs, hd, h0],
        Or.inr ⟨c, rfl, hd⟩⟩
    · refine ⟨{ st with buffer := [], vals := st.vals ++ [10 * pyInt b + pyInt c] }, ?_, Or.inl rfl⟩
      simp [emitChar, hcs, hd, hb]
  | B =>
    have hsym := symB_some_of_Bkey (hB hcs)
    exact ⟨{ st with vals := st.vals ++ [c.toNat - 32] },
      by simp [emitChar, hcs, hsym], hinv⟩
  | A =>
    obtain ⟨v, hsym⟩ := symA_some_of_Akey (hA hcs)
    exact ⟨{ st with vals := st.vals ++ [v] },
      by simp [emitChar, hcs, hsym], hinv⟩

theorem code128Step_ok (code : List Char) (st : Enc) (pos : Nat)
    (hpos : pos < code.length) (hv : code.all code128ALL = true)
    (hinv : EncInv st) :
    ∃ st', code128Step code st pos = some st' ∧ EncInv st' := by
  have hget : code[pos]? = some code[pos] := List.getElem?_eq_getElem hpos
  have hc : code128ALL code[pos] = true :=
    List.all_eq_true.mp hv _ (List.getElem_mem hpos)
  obtain ⟨st2, hms, hinv2, hC, hB, hA⟩ := maybeSwitch_ok st code pos hpos hc hinv
  obtain ⟨st3, hec, hinv3⟩ := emitChar_ok st2 code[pos] hinv2 hC hB hA
  exact ⟨st3, by simp [code128Step, hms, hget, hec], hinv3⟩

theorem code128LoopAux_ok (code : List Char) (hv : code.all code128ALL = true) :
    ∀ (l : List Nat) (st : Enc), (∀ i ∈ l, i < code.length) → EncInv st →
      ∃ st', List.foldlM (code128Step code) st l = some st' ∧ EncInv st' := by
  intro l
  induction l with
  | nil => exact fun st _ hinv => ⟨st, rfl, hinv⟩
  | cons i l ih =>
    intro st hmem hinv
    have hi : i < code.length := hmem i (by simp)
    obtain ⟨st1, hstep, hinv1⟩ := code128Step_ok code st i hi hv hinv
    obtain ⟨st', hrest, hinv'⟩ :=
      ih st1 (fun j hj => hmem j (by simp [hj])) hinv1
    exact ⟨st', by rw [List.foldlM_cons, hstep]; simpa using hrest, hinv'⟩

theorem code128Finish_ok (st : Enc) (hinv : EncInv st) :
    ∃ vs, code128Finish st = some vs := by
  rcases hinv with h0 | ⟨b, hb, hbd⟩
  · exact ⟨st.vals, by simp [code128Finish, h0]⟩
  · have hsym : symB b = some (b.toNat - 32) :=
      symB_some_of_Bkey (Bkey_of_digit hbd)
    exact ⟨st.vals ++ [100, b.toNat - 32], by simp [code128Finish, hb, hsym]⟩

/-! ### Claim C8 -/

/-- Claim C8 (stated of the build tail modelled from the spec: the
emission loop's continuation, the checksum and the stop symbol lie beyond
the end of the truncated source file): for every valid Code 128 input the
emission loop succeeds, and after it the build emits exactly one checksum
symbol — the weighted sum of all emitted symbol ordinals modulo 103 — and
then the fixed stop symbol; the checksum step never fails, the check value
being always below 103 and hence always mapped back to a symbol of the
table. -/
theorem claimC8 (code : List Char) (hv : code.all code128ALL = true) :
    ∃ vs, code128Vals code = some vs
      ∧ code128Build code = some (vs ++ [weightedSum vs % 103, 106])
      ∧ weightedSum vs % 103 < 103 := by
  obtain ⟨st, hloop, hinv⟩ := code128LoopAux_ok code hv
    (List.range code.length) ⟨.B, [], [104]⟩
    (fun i hi => List.mem_range.mp hi) (Or.inl rfl)
  obtain ⟨vs, hfin⟩ := code128Finish_ok st hinv
  have hvals : code128Vals code = some vs := by
    simp [code128Vals, code128Loop, hloop, hfin]
  exact ⟨vs, hvals, by simp [code128Build, hvals],
    Nat.mod_lt _ (by omega)⟩

theorem claimC8_witness :
    ∃ vs, code128Vals "AB".toList = some vs
      ∧ code128Build "AB".toList = some (vs ++ [weightedSum vs % 103, 106])
      ∧ weightedSum vs % 103 < 103 :=
  claimC8 "AB".toList (by decide)

/-! ### Claim C9 -/

/-- Claim C9: for every string over the Code 39 alphabet, the built
pattern decodes back to the original string by table reverse-lookup —
split off the leading edge guard, then repeatedly a single-width gap and a
15-module character pattern mapped back through the symbol table, ending
at the closing gap and edge guard. -/
theorem claimC9 (code : List Char)
    (h : code.all (fun c => REF.contains c) = true) :
    ∃ p, code39Build code = .ok p ∧ decodePattern p = some code := by
  refine ⟨EDGE ++ bodyList code, code39Build_eq_bodyList code h, ?_⟩
  unfold decodePattern
  have h15 : EDGE.length = 15 := by decide
  rw [List.take_left' h15, List.drop_left' h15, if_pos rfl]
  exact decodeBody_bodyList code h

theorem claimC9_witness :
    ∃ p, code39Build "AB".toList = .ok p
      ∧ decodePattern p = some "AB".toList :=
  claimC9 "AB".toList (by decide)

/-! ### Claim C10 -/

/-- Claim C10: `Code39.__init__` uppercases its input before any checksum
or validation step, so construction from `code` and from `code.upper()`
agree for every input and flag, and lowercase input is accepted at the
public interface even though the alphabet holds only uppercase letters —
concretely `"abc"` is accepted (stored as `"ABCX"`, checksum included)
although all its characters lie outside the alphabet. -/
theorem claimC10 :
    (∀ (code : List Char) (ac : Bool),
      code39Init code ac = code39Init (pyUpper code) ac)
    ∧ code39Init "abc".toList true = .ok "ABCX".toList
    ∧ "abc".toList.all (fun c => REF.contains c) = false := by
  refine ⟨?_, by decide, by decide⟩
  intro code ac
  simp [code39Init, pyUpper_idem]

end Codex
